import Mathlib

/-!
Verification of the py2droid build pipeline (`scripts/build.py`) against its
natural-language specification.

The Python source is shallowly embedded: pure fragments become Lean functions,
filesystem-mutating stages become functions on an explicit tree of entries, and
fallible code returns `Option`/`Except`.  Byte strings are `List Nat`, text is
`List Char`.
-/

/-! ## Filesystem model for the debloat stage (`ModuleBuilder._debloat`)

A prefix tree is a list of entries, each a path (relative to the prefix root,
`/`-separated) together with the way the OS `stat` calls used by the script
classify it.  `pyIsFile`/`pyIsDir` follow symlinks, exactly like Python's
`Path.is_file`/`Path.is_dir`; `pyIsSymlink` models `Path.is_symlink`.  A
symlink's classification is recorded per entry and assumed stable for the run.
-/

inductive EntryKind
  | file
  | dir
  | symlinkToFile
  | symlinkToDir
  | symlinkBroken
deriving DecidableEq

/-- `Path.is_file()` (follows symlinks). -/
def EntryKind.pyIsFile : EntryKind → Bool
  | .file => true
  | .symlinkToFile => true
  | _ => false

/-- `Path.is_dir()` (follows symlinks). -/
def EntryKind.pyIsDir : EntryKind → Bool
  | .dir => true
  | .symlinkToDir => true
  | _ => false

/-- `Path.is_symlink()`. -/
def EntryKind.pyIsSymlink : EntryKind → Bool
  | .symlinkToFile => true
  | .symlinkToDir => true
  | .symlinkBroken => true
  | _ => false

structure Entry where
  path : String
  kind : EntryKind
deriving DecidableEq

abbrev FsTree := List Entry

/-- Entry at path `q` is inside the subtree rooted at path `p`
(`q = p`, or `q` lies strictly below directory `p`). -/
def pathUnder (q p : String) : Bool :=
  q == p || (p ++ "/").toList.isPrefixOf q.toList

/-- `shutil.rmtree(p)`: removes `p` and everything below it. -/
def rmtree (p : String) (t : FsTree) : FsTree :=
  t.filter (fun e => !pathUnder e.path p)

/-- `Path.unlink()`: removes the single entry at `p`. -/
def unlink (p : String) (t : FsTree) : FsTree :=
  t.filter (fun e => e.path != p)

/-- One iteration of the unconditional-pattern loop of `_debloat`
(build.py lines 401-405), acting on the current tree `cur` for the matched
entry `e`.  The glob generator never yields an already-deleted path, which the
model expresses with the existence check. -/
def uncondStep (cur : FsTree) (e : Entry) : FsTree :=
  if cur.any (fun x => x.path == e.path) then
    if e.kind.pyIsDir && !e.kind.pyIsSymlink then rmtree e.path cur
    else unlink e.path cur
  else cur

/-- A conditional debloat rule: the glob matcher of its `pattern` plus the raw
`rm_if` list from the configuration. -/
structure CondRule where
  globMatch : String → Bool
  rmIf : List String

/-- ASCII lower-casing of one character, as `str.lower` acts on the ASCII
range (the only characters occurring in the kind names `file`/`dir`/`symlink`
this is compared against). -/
def pyLowerChar (c : Char) : Char :=
  if 65 ≤ c.toNat && c.toNat ≤ 90 then Char.ofNat (c.toNat + 32) else c

/-- `str.lower` on a configuration string. -/
def pyLower (s : String) : String :=
  String.mk (s.toList.map pyLowerChar)

/-- `rm_file = "file" in set(map(str.lower, rm_if))`. -/
def CondRule.rmFile (r : CondRule) : Bool :=
  (r.rmIf.map pyLower).contains "file"

/-- `rm_dir = "dir" in set(map(str.lower, rm_if))`. -/
def CondRule.rmDir (r : CondRule) : Bool :=
  (r.rmIf.map pyLower).contains "dir"

/-- `rm_symlink = "symlink" in set(map(str.lower, rm_if))`. -/
def CondRule.rmSymlink (r : CondRule) : Bool :=
  (r.rmIf.map pyLower).contains "symlink"

/-- One iteration of the conditional-rule loop of `_debloat`
(build.py lines 419-427). -/
def condStep (rmF rmD rmS : Bool) (cur : FsTree) (e : Entry) : FsTree :=
  if cur.any (fun x => x.path == e.path) then
    if e.kind.pyIsDir && !e.kind.pyIsSymlink && rmD then rmtree e.path cur
    else if (e.kind.pyIsSymlink && rmS) || (e.kind.pyIsFile && rmF) then unlink e.path cur
    else cur
  else cur

/-- The condition under which the conditional-rule loop deletes a (still
existing) matched entry `e`: the disjunction of the two deleting branches of
`condStep`. -/
def condTest (r : CondRule) (e : Entry) : Bool :=
  (e.kind.pyIsDir && !e.kind.pyIsSymlink && r.rmDir) ||
    ((e.kind.pyIsSymlink && r.rmSymlink) || (e.kind.pyIsFile && r.rmFile))

/-- The unconditional pass of `_debloat`: all bare string patterns are handed
to one `glob` call, abstracted by the combined matcher `m`. -/
def debloatUncond (m : String → Bool) (t : FsTree) : FsTree :=
  (t.filter (fun e => m e.path)).foldl uncondStep t

/-- One conditional rule's pass of `_debloat`. -/
def debloatCondRule (r : CondRule) (t : FsTree) : FsTree :=
  (t.filter (fun e => r.globMatch e.path)).foldl (condStep r.rmFile r.rmDir r.rmSymlink) t

/-- `ModuleBuilder._debloat`: the unconditional pass followed by the
conditional rules in declaration order. -/
def debloat (m : String → Bool) (rules : List CondRule) (t : FsTree) : FsTree :=
  rules.foldl (fun cur r => debloatCondRule r cur) (debloatUncond m t)

/-! ### Structural lemmas about the debloat model -/

theorem rmtree_sublist (p : String) (t : FsTree) : (rmtree p t).Sublist t :=
  List.filter_sublist t

theorem unlink_sublist (p : String) (t : FsTree) : (unlink p t).Sublist t :=
  List.filter_sublist t

theorem uncondStep_sublist (cur : FsTree) (e : Entry) : (uncondStep cur e).Sublist cur := by
  unfold uncondStep
  split
  · split
    · exact rmtree_sublist _ _
    · exact unlink_sublist _ _
  · exact List.Sublist.refl _

theorem condStep_sublist (rmF rmD rmS : Bool) (cur : FsTree) (e : Entry) :
    (condStep rmF rmD rmS cur e).Sublist cur := by
  unfold condStep
  split
  · split
    · exact rmtree_sublist _ _
    · split
      · exact unlink_sublist _ _
      · exact List.Sublist.refl _
  · exact List.Sublist.refl _

theorem foldl_sublist {α : Type} (step : FsTree → α → FsTree)
    (hs : ∀ cur e, (step cur e).Sublist cur) :
    ∀ (l : List α) (cur : FsTree), (l.foldl step cur).Sublist cur := by
  intro l
  induction l with
  | nil => intro cur; exact List.Sublist.refl _
  | cons e l ih =>
    intro cur
    exact (ih (step cur e)).trans (hs cur e)

theorem debloatUncond_sublist (m : String → Bool) (t : FsTree) :
    (debloatUncond m t).Sublist t :=
  foldl_sublist uncondStep uncondStep_sublist _ t

theorem debloatCondRule_sublist (r : CondRule) (t : FsTree) :
    (debloatCondRule r t).Sublist t :=
  foldl_sublist _ (condStep_sublist _ _ _) _ t

theorem debloatRules_sublist (rules : List CondRule) :
    ∀ t : FsTree, (rules.foldl (fun cur r => debloatCondRule r cur) t).Sublist t := by
  induction rules with
  | nil => intro t; exact List.Sublist.refl _
  | cons r rules ih =>
    intro t
    exact (ih (debloatCondRule r t)).trans (debloatCondRule_sublist r t)

theorem debloat_sublist (m : String → Bool) (rules : List CondRule) (t : FsTree) :
    (debloat m rules t).Sublist t :=
  (debloatRules_sublist rules _).trans (debloatUncond_sublist m t)

/-- A fold whose step always shrinks the tree and always removes `x` when it
processes `x` itself never leaves `x` in the result once `x` occurs in the
processed list. -/
theorem foldl_not_mem (step : FsTree → Entry → FsTree)
    (hs : ∀ cur e, (step cur e).Sublist cur)
    (x : Entry) (hx : ∀ cur, x ∈ cur → x ∉ step cur x) :
    ∀ (l : List Entry) (cur : FsTree), x ∈ l → x ∉ l.foldl step cur := by
  intro l
  induction l with
  | nil => intro cur h; cases h
  | cons e l ih =>
    intro cur hmem
    rcases List.mem_cons.mp hmem with heq | hl
    · subst heq
      intro hres
      have hstep : x ∉ step cur x := by
        by_cases hc : x ∈ cur
        · exact hx cur hc
        · intro h; exact hc ((hs cur x).subset h)
      exact hstep ((foldl_sublist step hs l (step cur x)).subset hres)
    · exact ih (step cur e) hl

theorem uncondStep_self_delete (x : Entry) (cur : FsTree) (hc : x ∈ cur) :
    x ∉ uncondStep cur x := by
  unfold uncondStep
  have hany : cur.any (fun y => y.path == x.path) = true :=
    List.any_eq_true.mpr ⟨x, hc, by simp⟩
  rw [hany]
  simp only [if_true]
  split
  · intro h
    have := List.of_mem_filter h
    simp [pathUnder] at this
  · intro h
    have := List.of_mem_filter h
    simp at this

theorem condStep_self_delete (r : CondRule) (x : Entry) (cur : FsTree)
    (hc : x ∈ cur) (ht : condTest r x = true) :
    x ∉ condStep r.rmFile r.rmDir r.rmSymlink cur x := by
  have hany : cur.any (fun y => y.path == x.path) = true :=
    List.any_eq_true.mpr ⟨x, hc, by simp⟩
  unfold condTest at ht
  unfold condStep
  rw [hany]
  simp only [if_true]
  by_cases hA : (x.kind.pyIsDir && !x.kind.pyIsSymlink && r.rmDir) = true
  · simp only [hA, if_true]
    intro h
    have := List.of_mem_filter h
    simp [pathUnder] at this
  · have hA' : (x.kind.pyIsDir && !x.kind.pyIsSymlink && r.rmDir) = false :=
      Bool.eq_false_iff.mpr hA
    have hB : ((x.kind.pyIsSymlink && r.rmSymlink) || (x.kind.pyIsFile && r.rmFile)) = true := by
      rw [hA'] at ht
      simpa using ht
    simp only [hA', hB, Bool.false_eq_true, if_false, if_true]
    intro h
    have := List.of_mem_filter h
    simp at this

/-- Every entry surviving the unconditional pass fails the combined matcher. -/
theorem debloatUncond_survivor (m : String → Bool) (t : FsTree) (e : Entry)
    (he : e ∈ debloatUncond m t) : m e.path = false := by
  by_contra hne
  have hm : m e.path = true := by
    cases h : m e.path
    · exact absurd h hne
    · rfl
  have het : e ∈ t := (debloatUncond_sublist m t).subset he
  have hin : e ∈ t.filter (fun x => m x.path) :=
    List.mem_filter.mpr ⟨het, hm⟩
  exact foldl_not_mem uncondStep uncondStep_sublist e
    (uncondStep_self_delete e) _ t hin he

/-- Every entry surviving one conditional rule's pass and matching its glob
fails the rule's kind test. -/
theorem debloatCondRule_survivor (r : CondRule) (t : FsTree) (e : Entry)
    (he : e ∈ debloatCondRule r t) (hm : r.globMatch e.path = true) :
    condTest r e = false := by
  by_contra hne
  have ht : condTest r e = true := by
    cases h : condTest r e
    · exact absurd h hne
    · rfl
  have het : e ∈ t := (debloatCondRule_sublist r t).subset he
  have hin : e ∈ t.filter (fun x => r.globMatch x.path) :=
    List.mem_filter.mpr ⟨het, hm⟩
  exact foldl_not_mem _ (condStep_sublist _ _ _) e
    (fun cur hc => condStep_self_delete r e cur hc ht) _ t hin he

/-- Every entry surviving a run of conditional rules fails the kind test of
each rule whose glob it globMatch. -/
theorem debloatRules_survivor (rules : List CondRule) :
    ∀ (t : FsTree) (e : Entry),
      e ∈ rules.foldl (fun cur r => debloatCondRule r cur) t →
      ∀ r ∈ rules, r.globMatch e.path = true → condTest r e = false := by
  induction rules with
  | nil => intro t e _ r hr; cases hr
  | cons r₀ rules ih =>
    intro t e he r hr hm
    rcases List.mem_cons.mp hr with heq | hmem
    · subst heq
      have he' : e ∈ debloatCondRule r t :=
        (debloatRules_sublist rules _).subset he
      exact debloatCondRule_survivor r t e he' hm
    · exact ih (debloatCondRule r₀ t) e he r hmem hm

/-- A conditional step is the identity when the kind test fails. -/
theorem condStep_id (r : CondRule) (cur : FsTree) (e : Entry)
    (ht : condTest r e = false) :
    condStep r.rmFile r.rmDir r.rmSymlink cur e = cur := by
  unfold condTest at ht
  rcases Bool.or_eq_false_iff.mp ht with ⟨h1, h2⟩
  unfold condStep
  rw [h1, h2]
  simp

/-- A conditional rule's pass is the identity on a tree none of whose matched
entries pass the kind test. -/
theorem debloatCondRule_id (r : CondRule) (t : FsTree)
    (h : ∀ e ∈ t, r.globMatch e.path = true → condTest r e = false) :
    debloatCondRule r t = t := by
  unfold debloatCondRule
  have : ∀ (l : List Entry), (∀ e ∈ l, condTest r e = false) →
      l.foldl (condStep r.rmFile r.rmDir r.rmSymlink) t = t := by
    intro l
    induction l with
    | nil => intro _; rfl
    | cons e l ih =>
      intro hl
      have he : condTest r e = false := hl e (List.mem_cons_self e l)
      rw [List.foldl_cons, condStep_id r t e he]
      exact ih (fun x hx => hl x (List.mem_cons_of_mem e hx))
  refine this _ ?_
  intro e hme
  have := List.mem_filter.mp hme
  exact h e this.1 this.2

/-! ### Survivor and identity lemmas used for idempotence -/

theorem debloat_survivor_uncond (m : String → Bool) (rules : List CondRule)
    (t : FsTree) (e : Entry) (he : e ∈ debloat m rules t) : m e.path = false := by
  unfold debloat at he
  exact debloatUncond_survivor m t e ((debloatRules_sublist rules _).subset he)

theorem debloat_survivor_cond (m : String → Bool) (rules : List CondRule)
    (t : FsTree) (e : Entry) (he : e ∈ debloat m rules t) :
    ∀ r ∈ rules, r.globMatch e.path = true → condTest r e = false := by
  unfold debloat at he
  exact debloatRules_survivor rules _ e he

theorem debloatUncond_id (m : String → Bool) (t : FsTree)
    (h : ∀ e ∈ t, m e.path = false) : debloatUncond m t = t := by
  unfold debloatUncond
  have hf : t.filter (fun e => m e.path) = [] := by
    rw [List.filter_eq_nil_iff]
    intro e he
    rw [h e he]
    simp
  rw [hf]
  rfl

theorem debloatRules_id :
    ∀ (rules : List CondRule) (t : FsTree),
      (∀ r ∈ rules, ∀ e ∈ t, r.globMatch e.path = true → condTest r e = false) →
      rules.foldl (fun cur r => debloatCondRule r cur) t = t := by
  intro rules
  induction rules with
  | nil => intro t _; rfl
  | cons r rules ih =>
    intro t h
    have hid : debloatCondRule r t = t :=
      debloatCondRule_id r t (h r (List.mem_cons_self r rules))
    rw [List.foldl_cons, hid]
    exact ih t (fun r' hr' => h r' (List.mem_cons_of_mem r hr'))

/-- C5: for every debloat rule set (an unconditional combined glob matcher
plus conditional rules) and every prefix tree, `_debloat` is idempotent: a
second run of the same rules deletes nothing and returns the tree produced by
the first run unchanged. -/
theorem debloat_idempotent (m : String → Bool) (rules : List CondRule) (t : FsTree) :
    debloat m rules (debloat m rules t) = debloat m rules t := by
  have huncond : debloatUncond m (debloat m rules t) = debloat m rules t :=
    debloatUncond_id m _ (fun e he => debloat_survivor_uncond m rules t e he)
  show rules.foldl (fun cur r => debloatCondRule r cur)
      (debloatUncond m (debloat m rules t)) = debloat m rules t
  rw [huncond]
  exact debloatRules_id rules _
    (fun r hr e he hm => debloat_survivor_cond m rules t e he r hr hm)

/-! ### C1: conditional rules and entry kinds -/

/-- The tree for the C1 counterexample: one symlink whose target is a
regular file. -/
def c1Tree : FsTree := [⟨"bin/link", .symlinkToFile⟩]

/-- The rule for the C1 counterexample: the glob matches the symlink and the
delete-set is `["file"]`, without `"symlink"`. -/
def c1Rule : CondRule := ⟨fun p => p == "bin/link", ["file"]⟩

/-- C1 counterexample: the entry `bin/link` is a symlink (kind `symlink`), it
is matched by a conditional rule whose delete-set is exactly `["file"]` (so
the entry's kind is absent from the delete-set), yet `_debloat` deletes it:
`Path.is_file()` follows the symlink, so the `rm_file` branch fires.  This
refutes the claim that such an entry is never deleted. -/
theorem c1_symlink_deleted_counterexample :
    (⟨"bin/link", .symlinkToFile⟩ : Entry) ∈ c1Tree ∧
    c1Rule.globMatch "bin/link" = true ∧
    EntryKind.pyIsSymlink (⟨"bin/link", .symlinkToFile⟩ : Entry).kind = true ∧
    c1Rule.rmIf = ["file"] ∧
    ("symlink" ∈ c1Rule.rmIf → False) ∧
    debloat (fun _ => false) [c1Rule] c1Tree = [] := by
  decide

theorem pathUnder_ne (e x : Entry) (hp : pathUnder e.path x.path = false) :
    (e.path != x.path) = true := by
  unfold pathUnder at hp
  rcases Bool.or_eq_false_iff.mp hp with ⟨h1, _⟩
  simp only [bne, h1]
  rfl

theorem uncondStep_keeps (cur : FsTree) (x e : Entry) (he : e ∈ cur)
    (hp : pathUnder e.path x.path = false) : e ∈ uncondStep cur x := by
  have hne := pathUnder_ne e x hp
  unfold uncondStep
  by_cases hany : (cur.any fun y => y.path == x.path) = true
  · simp only [hany, if_true]
    by_cases hd : (x.kind.pyIsDir && !x.kind.pyIsSymlink) = true
    · simp only [hd, if_true]
      exact List.mem_filter.mpr ⟨he, by simp [hp]⟩
    · simp only [Bool.eq_false_iff.mpr hd, Bool.false_eq_true, if_false]
      exact List.mem_filter.mpr ⟨he, hne⟩
  · simp only [Bool.eq_false_iff.mpr hany, Bool.false_eq_true, if_false]
    exact he

theorem condStep_keeps (r : CondRule) (cur : FsTree) (x e : Entry) (he : e ∈ cur)
    (h : pathUnder e.path x.path = false ∨ condTest r x = false) :
    e ∈ condStep r.rmFile r.rmDir r.rmSymlink cur x := by
  rcases h with hp | ht
  · have hne := pathUnder_ne e x hp
    unfold condStep
    by_cases hany : (cur.any fun y => y.path == x.path) = true
    · simp only [hany, if_true]
      by_cases hA : (x.kind.pyIsDir && !x.kind.pyIsSymlink && r.rmDir) = true
      · simp only [hA, if_true]
        exact List.mem_filter.mpr ⟨he, by simp [hp]⟩
      · simp only [Bool.eq_false_iff.mpr hA, Bool.false_eq_true, if_false]
        by_cases hB : ((x.kind.pyIsSymlink && r.rmSymlink) || (x.kind.pyIsFile && r.rmFile)) = true
        · simp only [hB, if_true]
          exact List.mem_filter.mpr ⟨he, hne⟩
        · simp only [Bool.eq_false_iff.mpr hB, Bool.false_eq_true, if_false]
          exact he
    · simp only [Bool.eq_false_iff.mpr hany, Bool.false_eq_true, if_false]
      exact he
  · rw [condStep_id r cur x ht]
    exact he

/-- An entry survives a fold whenever each processed element's step keeps it. -/
theorem foldl_keeps (step : FsTree → Entry → FsTree) (e : Entry) :
    ∀ (l : List Entry) (cur : FsTree), e ∈ cur →
      (∀ x ∈ l, ∀ c : FsTree, e ∈ c → e ∈ step c x) →
      e ∈ l.foldl step cur := by
  intro l
  induction l with
  | nil => intro cur he _; exact he
  | cons x l ih =>
    intro cur he hstep
    exact ih (step cur x) (hstep x (List.mem_cons_self x l) cur he)
      (fun y hy => hstep y (List.mem_cons_of_mem x hy))

theorem debloatRules_keeps (t : FsTree) (e : Entry) :
    ∀ (rules : List CondRule) (cur : FsTree),
      (∀ r ∈ rules, ∀ x ∈ t, pathUnder e.path x.path = true →
          r.globMatch x.path = true → condTest r x = false) →
      cur.Sublist t → e ∈ cur →
      e ∈ rules.foldl (fun c r => debloatCondRule r c) cur := by
  intro rules
  induction rules with
  | nil => intro cur _ _ he; exact he
  | cons r rules ih =>
    intro cur hr hsub he
    have h1 : e ∈ debloatCondRule r cur := by
      unfold debloatCondRule
      refine foldl_keeps _ e _ cur he ?_
      intro x hx c hec
      obtain ⟨hxcur, hxmatch⟩ := List.mem_filter.mp hx
      have hxt : x ∈ t := hsub.subset hxcur
      by_cases hpu : pathUnder e.path x.path = true
      · exact condStep_keeps r c x e hec
          (Or.inr (hr r (List.mem_cons_self r rules) x hxt hpu hxmatch))
      · exact condStep_keeps r c x e hec (Or.inl (Bool.eq_false_iff.mpr hpu))
    exact ih (debloatCondRule r cur)
      (fun r' hr' => hr r' (List.mem_cons_of_mem r hr'))
      ((debloatCondRule_sublist r cur).trans hsub) h1

/-- C1 (amended): a `_debloat` run never deletes an entry `e` provided that
(a) no unconditional pattern matches `e` or any path enclosing it, and
(b) for every conditional rule, no matched entry at `e`'s path or enclosing it
passes the rule's deletion test — where the test deletes a non-symlink
directory when `dir` is in the delete-set, a symlink when `symlink` is in the
delete-set, and an entry for which `Path.is_file()` holds (a regular file OR a
symlink whose target is a regular file) when `file` is in the delete-set.
Compared with the original claim, a symlink to a regular file counts as a
file, and deletion of an enclosing directory removes the entry with it. -/
theorem debloat_cond_kind_guard (m : String → Bool) (rules : List CondRule)
    (t : FsTree) (e : Entry) (he : e ∈ t)
    (hm : ∀ x ∈ t, pathUnder e.path x.path = true → m x.path = false)
    (hr : ∀ r ∈ rules, ∀ x ∈ t, pathUnder e.path x.path = true →
            r.globMatch x.path = true → condTest r x = false) :
    e ∈ debloat m rules t := by
  have h1 : e ∈ debloatUncond m t := by
    unfold debloatUncond
    refine foldl_keeps _ e _ t he ?_
    intro x hx c hec
    obtain ⟨hxt, hxm⟩ := List.mem_filter.mp hx
    by_cases hpu : pathUnder e.path x.path = true
    · rw [hm x hxt hpu] at hxm
      exact absurd hxm (by simp)
    · exact uncondStep_keeps c x e hec (Bool.eq_false_iff.mpr hpu)
  exact debloatRules_keeps t e rules (debloatUncond m t) hr
    (debloatUncond_sublist m t) h1

/-- The tree for the C1 witness: a regular file and an unrelated directory. -/
def c1wTree : FsTree := [⟨"lib/keep.so", .file⟩, ⟨"share", .dir⟩]

/-- The rule for the C1 witness: matches `lib/keep.so` but only deletes
directories. -/
def c1wRule : CondRule := ⟨fun p => p == "lib/keep.so", ["dir"]⟩

/-- C1 witness: the amended preservation theorem applied to a concrete tree,
matcher and rule set; the matched regular file survives the run because
`dir` is the only kind in the delete-set. -/
theorem debloat_cond_kind_guard_witness :
    (⟨"lib/keep.so", .file⟩ : Entry) ∈
      debloat (fun p => p == "share") [c1wRule] c1wTree :=
  debloat_cond_kind_guard (fun p => p == "share") [c1wRule] c1wTree
    ⟨"lib/keep.so", .file⟩ (by decide) (by decide) (by decide)

/-! ## Shebang fixing (`ModuleBuilder._fix_shebangs`, `is_binary`, `TEXT_CHARS`)

File contents are byte lists.  `readline` models Python's
`BufferedReader.readline(size)`: it returns bytes up to and including the
first newline, but at most `size` bytes.
-/

/-- Membership in `TEXT_CHARS = {7, 8, 9, 10, 12, 13, 27} | set(range(0x20, 0x100)) - {0x7F}`. -/
def TEXT_CHARS (b : Nat) : Bool :=
  b ∈ ([7, 8, 9, 10, 12, 13, 27] : List Nat) || (0x20 ≤ b && b ≤ 0xFF && b ≠ 0x7F)

/-- `is_binary(data) = bool(data.translate(None, TEXT_CHARS))`: true iff some
byte falls outside `TEXT_CHARS`. -/
def is_binary (data : List Nat) : Bool :=
  data.any (fun b => !TEXT_CHARS b)

/-- `fin.readline(size)`: one line, at most `size` bytes. -/
def readline : Nat → List Nat → List Nat
  | _, [] => []
  | 0, _ :: _ => []
  | f + 1, b :: bs => if b == 10 then [b] else b :: readline f bs

/-- Length of the first line of a byte string, its terminating newline
included (the whole string when it has no newline). -/
def firstLineLen : List Nat → Nat
  | [] => 0
  | b :: bs => if b == 10 then 1 else 1 + firstLineLen bs

/-- The bytes after the first line. -/
def afterFirstLine (c : List Nat) : List Nat :=
  c.drop (firstLineLen c)

/-- ASCII bytes of a literal. -/
def asciiBytes (s : String) : List Nat :=
  s.toList.map Char.toNat

/-- The matched bytes of `\s` in the Python `re` byte patterns. -/
def isSpaceByte (b : Nat) : Bool :=
  b ∈ ([32, 9, 10, 13, 12, 11] : List Nat)

/-- Does `l` start with the ASCII literal `s`? -/
def litP (s : String) (l : List Nat) : Bool :=
  (asciiBytes s).isPrefixOf l

/-- `l` with the ASCII literal `s` removed from the front. -/
def dropLit (s : String) (l : List Nat) : List Nat :=
  l.drop (asciiBytes s).length

/-- The alternatives of `/(?:usr/(?:local/)?|)(?:bin|sbin)/` spelled out. -/
def pathAlternatives : List String :=
  ["/bin/", "/sbin/", "/usr/bin/", "/usr/sbin/", "/usr/local/bin/", "/usr/local/sbin/"]

/-- After the interpreter directory: `(?:env\s+)?` followed by one of the
interpreter name literals.  Since the regex tail after each name consists of
optional pieces only, a match exists exactly when one name literal follows. -/
def interpAt (names : List String) (l : List Nat) : Bool :=
  names.any (fun w => litP w l) ||
    (litP "env" l &&
      (let r := dropLit "env" l
       isSpaceByte (r.headD 0) && names.any (fun w => litP w (r.dropWhile isSpaceByte))))

/-- `#!\s*` then one of the directory alternatives then `interpAt`: the
existence of a match of the shebang byte regexes of `ModuleBuilder`. -/
def shebangMatch (names : List String) (l : List Nat) : Bool :=
  litP "#!" l &&
    (let r := (dropLit "#!" l).dropWhile isSpaceByte
     pathAlternatives.any (fun p => litP p r && interpAt names (dropLit p r)))

/-- `ModuleBuilder.shell_shebang_re.match`. -/
def shellShebangMatch (l : List Nat) : Bool :=
  shebangMatch ["sh", "bash", "dash"] l

/-- For `python[0-9]*(?:\.[0-9]+)*` every piece after the name is optional, so
a match exists exactly when `python` follows: `ModuleBuilder.python_shebang_re.match`. -/
def pythonShebangMatch (l : List Nat) : Bool :=
  shebangMatch ["python"] l

/-- `ModuleBuilder.shell_shebang`. -/
def shell_shebang : List Nat := asciiBytes "#!/system/bin/sh\n"

/-- `ModuleBuilder.python_shebang`. -/
def python_shebang : List Nat := asciiBytes "#!/system/bin/python3\n"

/-- `_fix_shebangs` on the contents of one regular non-symlink file under
`bin/` (build.py lines 443-457): `some out` when the file is rewritten with
`path.write_bytes(out)`, `none` when it is skipped. -/
def fixShebangFile (content : List Nat) : Option (List Nat) :=
  if is_binary (readline 1024 content) then none
  else if shellShebangMatch (readline 1024 content) then
    some (shell_shebang ++ content.drop (readline 1024 content).length)
  else if pythonShebangMatch (readline 1024 content) then
    some (python_shebang ++ content.drop (readline 1024 content).length)
  else none

/-! ### C2: binary detection -/

/-- C2 counterexample file: a clean shell-shebang first line followed by a
NUL byte. -/
def c2File : List Nat := asciiBytes "#!/bin/sh\n" ++ [0]

/-- C2 counterexample: `c2File`'s first 1024 bytes (the whole 11-byte file)
contain a byte outside `TEXT_CHARS`, yet `_fix_shebangs` rewrites it and the
result differs from the original: `is_binary` is applied to `readline(1024)`
(the first line only), not to the first 1024 bytes. -/
theorem c2_binary_guard_counterexample :
    (c2File.take 1024).any (fun b => !TEXT_CHARS b) = true ∧
    fixShebangFile c2File = some (shell_shebang ++ [0]) ∧
    shell_shebang ++ [0] ≠ c2File := by
  decide

/-- C2 (amended): `_fix_shebangs` never rewrites a file whose inspected chunk
— the first line, capped at 1024 bytes — contains a byte outside
`TEXT_CHARS`; such a file is skipped, its contents unchanged. -/
theorem fix_shebangs_binary_skip (content : List Nat)
    (h : is_binary (readline 1024 content) = true) :
    fixShebangFile content = none := by
  unfold fixShebangFile
  rw [if_pos h]

/-- C2 witness: the amended skip theorem applied to a concrete binary file. -/
theorem fix_shebangs_binary_skip_witness :
    is_binary (readline 1024 [0, 65, 66]) = true ∧
    fixShebangFile [0, 65, 66] = none :=
  ⟨by decide, fix_shebangs_binary_skip [0, 65, 66] (by decide)⟩

/-! ### C4: rewrite shape -/

theorem firstLineLen_le_length : ∀ c : List Nat, firstLineLen c ≤ c.length := by
  intro c
  induction c with
  | nil => simp [firstLineLen]
  | cons b bs ih =>
    unfold firstLineLen
    by_cases hb : (b == 10) = true
    · rw [if_pos hb]
      simp
    · rw [if_neg hb]
      simp only [List.length_cons]
      omega

theorem readline_eq_take : ∀ (c : List Nat) (f : Nat), firstLineLen c ≤ f →
    readline f c = c.take (firstLineLen c) := by
  intro c
  induction c with
  | nil => intro f _; cases f <;> simp [readline, firstLineLen]
  | cons b bs ih =>
    intro f hf
    cases f with
    | zero =>
      exfalso
      simp only [firstLineLen] at hf
      split at hf <;> omega
    | succ f =>
      by_cases hb : (b == 10) = true
      · simp only [readline]
        rw [if_pos hb]
        have h1 : firstLineLen (b :: bs) = 1 := by
          simp only [firstLineLen]
          rw [if_pos hb]
        rw [h1]
        rfl
      · simp only [readline]
        rw [if_neg hb]
        have h1 : firstLineLen (b :: bs) = 1 + firstLineLen bs := by
          simp only [firstLineLen]
          rw [if_neg hb]
        rw [h1] at hf ⊢
        have hf' : firstLineLen bs ≤ f := by omega
        rw [ih f hf', Nat.add_comm 1 (firstLineLen bs), List.take_succ_cons]

/-- C4 counterexample file: a matching shell shebang whose first line is 1026
bytes long (beyond the 1024-byte `readline` cap), followed by a second line. -/
def c4File : List Nat := asciiBytes "#!/bin/sh" ++ List.replicate 1016 120 ++ [10, 65]

set_option maxRecDepth 100000 in
/-- C4 counterexample: `_fix_shebangs` rewrites `c4File`, but the result
keeps the tail of the over-long first line (the byte 120 beyond position
1024) rather than equalling the target shebang plus the bytes after the first
line, which would be `[65]` alone. -/
theorem c4_long_line_counterexample :
    fixShebangFile c4File = some (shell_shebang ++ [120, 10, 65]) ∧
    afterFirstLine c4File = [65] ∧
    shell_shebang ++ [120, 10, 65] ≠ shell_shebang ++ [65] := by
  refine ⟨by decide, by decide, by decide⟩

/-- C4 (amended): whenever `_fix_shebangs` rewrites a file, the result is the
fixed target shebang (shell when the shell pattern matched, otherwise python)
followed by every byte of the original after the inspected chunk — the first
line capped at 1024 bytes; when the first line including its newline fits in
1024 bytes, that tail is exactly the content after the first line.  A file
already starting with a target shebang matches neither pattern and is never
rewritten (byte-identical no-op). -/
theorem fix_shebangs_rewrite (c out : List Nat) (h : fixShebangFile c = some out) :
    (if shellShebangMatch (readline 1024 c) = true
      then out = shell_shebang ++ c.drop (readline 1024 c).length
      else out = python_shebang ++ c.drop (readline 1024 c).length) ∧
    (firstLineLen c ≤ 1024 → c.drop (readline 1024 c).length = afterFirstLine c) ∧
    (∀ rest : List Nat, fixShebangFile (shell_shebang ++ rest) = none ∧
       fixShebangFile (python_shebang ++ rest) = none) := by
  refine ⟨?_, ?_, ?_⟩
  · unfold fixShebangFile at h
    by_cases hbin : is_binary (readline 1024 c) = true
    · rw [if_pos hbin] at h
      exact absurd h (by simp)
    · rw [if_neg hbin] at h
      by_cases hsh : shellShebangMatch (readline 1024 c) = true
      · rw [if_pos hsh] at h
        rw [if_pos hsh]
        exact (Option.some_inj.mp h).symm
      · rw [if_neg hsh] at h
        rw [if_neg hsh]
        by_cases hpy : pythonShebangMatch (readline 1024 c) = true
        · rw [if_pos hpy] at h
          exact (Option.some_inj.mp h).symm
        · rw [if_neg hpy] at h
          exact absurd h (by simp)
  · intro hfl
    rw [readline_eq_take c 1024 hfl, List.length_take,
      Nat.min_eq_left (firstLineLen_le_length c)]
    rfl
  · intro rest
    exact ⟨rfl, rfl⟩

/-- The file for the C4 witness: a one-byte second line after a matching
shebang line. -/
def c4wFile : List Nat := asciiBytes "#!/bin/sh\nX"

/-- C4 witness: the amended rewrite theorem applied to a concrete rewritten
file. -/
theorem fix_shebangs_rewrite_witness :
    (if shellShebangMatch (readline 1024 c4wFile) = true
      then shell_shebang ++ [88] = shell_shebang ++ c4wFile.drop (readline 1024 c4wFile).length
      else shell_shebang ++ [88] = python_shebang ++ c4wFile.drop (readline 1024 c4wFile).length) ∧
    (firstLineLen c4wFile ≤ 1024 →
      c4wFile.drop (readline 1024 c4wFile).length = afterFirstLine c4wFile) ∧
    (∀ rest : List Nat, fixShebangFile (shell_shebang ++ rest) = none ∧
       fixShebangFile (python_shebang ++ rest) = none) :=
  fix_shebangs_rewrite c4wFile (shell_shebang ++ [88]) (by decide)

/-! ## Metadata properties file (`parse_module_prop`, `format_module_prop`)

The file is read in text mode and iterated line by line, so the model works
on `List Char`.  `readLines` reproduces Python file iteration: it splits
after every newline and keeps the terminators.
-/

/-- The characters stripped by Python's `str.strip()` (the Unicode
whitespace set of `str.isspace`). -/
def pySpace (c : Char) : Bool :=
  c.toNat ∈ ([9, 10, 11, 12, 13, 28, 29, 30, 31, 32, 0x85, 0xA0, 0x1680,
    0x2000, 0x2001, 0x2002, 0x2003, 0x2004, 0x2005, 0x2006, 0x2007, 0x2008,
    0x2009, 0x200A, 0x2028, 0x2029, 0x202F, 0x205F, 0x3000] : List Nat)

/-- `str.strip()`. -/
def pyStrip (s : List Char) : List Char :=
  ((s.dropWhile pySpace).reverse.dropWhile pySpace).reverse

/-- Accumulating splitter behind `readLines`. -/
def readLinesAux : List Char → List Char → List (List Char)
  | acc, [] => if acc.isEmpty then [] else [acc.reverse]
  | acc, c :: cs =>
    if c == '\n' then (acc.reverse ++ ['\n']) :: readLinesAux [] cs
    else readLinesAux (c :: acc) cs

/-- `for line in fin`: the lines of the file, each keeping its newline. -/
def readLines (c : List Char) : List (List Char) :=
  readLinesAux [] c

/-- The position of the first `=`: `some (before, after)` when found. -/
def partEq : List Char → Option (List Char × List Char)
  | [] => none
  | c :: cs =>
    if c == '=' then some ([], cs)
    else
      match partEq cs with
      | none => none
      | some (a, b) => some (c :: a, b)

/-- `s.partition("=")` restricted to the used components `parts[0]` and
`parts[2]`. -/
def pyPartitionEq (s : List Char) : List Char × List Char :=
  match partEq s with
  | none => (s, [])
  | some (a, b) => (a, b)

/-- `props[k] = v` on an insertion-ordered dictionary: an existing key keeps
its position and gets the new value, a new key is appended. -/
def dictInsert (props : List (List Char × List Char)) (k v : List Char) :
    List (List Char × List Char) :=
  if props.any (fun p => p.1 == k) then
    props.map (fun p => if p.1 == k then (k, v) else p)
  else props ++ [(k, v)]

/-- `parse_module_prop` (build.py lines 563-577) applied to the file
contents. -/
def parse_module_prop (content : List Char) : List (List Char × List Char) :=
  (readLines content).foldl
    (fun props line =>
      if (pyStrip line).head? == some '#' then props
      else
        dictInsert props (pyPartitionEq (pyStrip line)).1
          (pyPartitionEq (pyStrip line)).2)
    []

/-- `format_module_prop` (build.py lines 580-587). -/
def format_module_prop (props : List (List Char × List Char)) : List Char :=
  (props.map (fun kv => kv.1 ++ '=' :: (kv.2 ++ ['\n']))).flatten

/-! ### Round-trip lemmas for the properties file -/

/-- The key under which a line is stored by `parse_module_prop`. -/
def lineKey (l : List Char) : List Char :=
  (pyPartitionEq (pyStrip l)).1

/-- The key/value pair a line is stored as. -/
def lineKV (l : List Char) : List Char × List Char :=
  pyPartitionEq (pyStrip l)

theorem readLinesAux_append (m : List Char) :
    ∀ (acc rest : List Char), '\n' ∉ m →
      readLinesAux acc (m ++ '\n' :: rest) =
        (acc.reverse ++ m ++ ['\n']) :: readLinesAux [] rest := by
  induction m with
  | nil =>
    intro acc rest _
    simp [readLinesAux]
  | cons c m ih =>
    intro acc rest hnl
    have hc : (c == '\n') = false := by
      have : c ≠ '\n' := fun he => hnl (he ▸ List.mem_cons_self c m)
      simp [this]
    have hm : '\n' ∉ m := fun hx => hnl (List.mem_cons_of_mem c hx)
    simp only [List.cons_append, readLinesAux, hc, Bool.false_eq_true, if_false,
      List.append_eq]
    rw [ih (c :: acc) rest hm]
    simp

theorem readLines_flatten :
    ∀ lines : List (List Char),
      (∀ l ∈ lines, l.getLast? = some '\n' ∧ '\n' ∉ l.dropLast) →
      readLines lines.flatten = lines := by
  intro lines
  induction lines with
  | nil => intro _; rfl
  | cons l lines ih =>
    intro h
    obtain ⟨hlast, hnl⟩ := h l (List.mem_cons_self l lines)
    have hne : l ≠ [] := by
      intro he
      rw [he] at hlast
      simp at hlast
    have hgl : l.getLast hne = '\n' := by
      rw [List.getLast?_eq_getLast l hne] at hlast
      exact Option.some_inj.mp hlast
    have hl : l = l.dropLast ++ ['\n'] := by
      conv_lhs => rw [← List.dropLast_append_getLast hne, hgl]
    have hrest : (l :: lines).flatten = l.dropLast ++ '\n' :: lines.flatten := by
      rw [List.flatten_cons]
      conv_lhs => rw [hl]
      simp
    unfold readLines
    rw [hrest, readLinesAux_append l.dropLast [] lines.flatten hnl]
    rw [List.reverse_nil, List.nil_append, ← hl]
    rw [show readLinesAux [] lines.flatten = readLines lines.flatten from rfl]
    rw [ih (fun x hx => h x (List.mem_cons_of_mem l hx))]

theorem partEq_append : ∀ (s a b : List Char), partEq s = some (a, b) →
    s = a ++ '=' :: b := by
  intro s
  induction s with
  | nil => intro a b h; simp [partEq] at h
  | cons c cs ih =>
    intro a b h
    by_cases hc : (c == '=') = true
    · simp only [partEq, hc, if_true, Option.some_inj] at h
      have ha : a = [] := (congrArg Prod.fst h).symm
      have hb : b = cs := (congrArg Prod.snd h).symm
      have hce : c = '=' := by simpa using hc
      rw [ha, hb, hce]
      rfl
    · simp only [partEq, hc, Bool.false_eq_true, if_false] at h
      cases hp : partEq cs with
      | none => rw [hp] at h; simp at h
      | some ab =>
        rw [hp] at h
        obtain ⟨a', b'⟩ := ab
        simp only [Option.some_inj] at h
        have h1 : a = c :: a' := (congrArg Prod.fst h).symm
        have h2 : b = b' := (congrArg Prod.snd h).symm
        rw [h1, h2, List.cons_append, ← ih a' b' hp]

theorem partEq_isSome_of_mem : ∀ s : List Char, '=' ∈ s →
    ∃ a b, partEq s = some (a, b) := by
  intro s
  induction s with
  | nil => intro h; cases h
  | cons c cs ih =>
    intro h
    by_cases hc : (c == '=') = true
    · exact ⟨[], cs, by simp only [partEq, hc, if_true]⟩
    · have hcs : '=' ∈ cs := by
        rcases List.mem_cons.mp h with he | hm
        · exfalso
          rw [← he] at hc
          simp at hc
        · exact hm
      obtain ⟨a, b, hp⟩ := ih hcs
      exact ⟨c :: a, b, by simp only [partEq, hc, Bool.false_eq_true, if_false, hp]⟩

theorem parse_fold :
    ∀ (lines : List (List Char)) (props₀ : List (List Char × List Char)),
      (∀ l ∈ lines, (pyStrip l).head? ≠ some '#') →
      (∀ l ∈ lines, ∀ p ∈ props₀, (p.1 == lineKey l) = false) →
      (lines.map lineKey).Nodup →
      lines.foldl
        (fun props line =>
          if (pyStrip line).head? == some '#' then props
          else
            dictInsert props (pyPartitionEq (pyStrip line)).1
              (pyPartitionEq (pyStrip line)).2)
        props₀
      = props₀ ++ lines.map lineKV := by
  intro lines
  induction lines with
  | nil => intro props₀ _ _ _; simp
  | cons l lines ih =>
    intro props₀ h1 h2 hnd
    have hhash : ((pyStrip l).head? == some '#') = false := by
      have := h1 l (List.mem_cons_self l lines)
      simp [this]
    have hany : (props₀.any fun p => p.1 == (pyPartitionEq (pyStrip l)).1) = false := by
      rw [List.any_eq_false]
      intro p hp
      have hf := h2 l (List.mem_cons_self l lines) p hp
      unfold lineKey at hf
      simp [hf]
    have hins : dictInsert props₀ (pyPartitionEq (pyStrip l)).1
        (pyPartitionEq (pyStrip l)).2 = props₀ ++ [lineKV l] := by
      unfold dictInsert
      rw [hany]
      simp
      rfl
    rw [List.foldl_cons]
    simp only [hhash, Bool.false_eq_true, if_false]
    rw [hins]
    rw [ih (props₀ ++ [lineKV l])
      (fun l' hl' => h1 l' (List.mem_cons_of_mem l hl'))
      ?_ (List.Nodup.of_cons hnd)]
    · simp
    · intro l' hl' p hp
      rcases List.mem_append.mp hp with hp0 | hp1
      · exact h2 l' (List.mem_cons_of_mem l hl') p hp0
      · have hpe : p = lineKV l := by
          rcases List.mem_singleton.mp hp1 with h
          exact h
        rw [hpe]
        have hkne : lineKey l ≠ lineKey l' := by
          intro he
          have h3 : lineKey l ∈ lines.map lineKey :=
            he ▸ List.mem_map_of_mem lineKey hl'
          exact (List.nodup_cons.mp hnd).1 h3
        have : (lineKV l).1 = lineKey l := rfl
        rw [this]
        exact beq_eq_false_iff_ne.mpr hkne

theorem format_lines :
    ∀ lines : List (List Char),
      (∀ l ∈ lines, pyStrip l = l.dropLast ∧ l.getLast? = some '\n' ∧ '=' ∈ pyStrip l) →
      format_module_prop (lines.map lineKV) = lines.flatten := by
  intro lines
  induction lines with
  | nil => intro _; rfl
  | cons l lines ih =>
    intro h
    obtain ⟨hstrip, hlast, hmem⟩ := h l (List.mem_cons_self l lines)
    obtain ⟨a, b, hp⟩ := partEq_isSome_of_mem (pyStrip l) hmem
    have hkv : lineKV l = (a, b) := by
      unfold lineKV pyPartitionEq
      rw [hp]
    have hline : a ++ '=' :: b = pyStrip l := (partEq_append (pyStrip l) a b hp).symm
    have hne : l ≠ [] := by
      intro he
      rw [he] at hlast
      simp at hlast
    have hgl : l.getLast hne = '\n' := by
      rw [List.getLast?_eq_getLast l hne] at hlast
      exact Option.some_inj.mp hlast
    have hl : l = l.dropLast ++ ['\n'] := by
      conv_lhs => rw [← List.dropLast_append_getLast hne, hgl]
    have hpiece : a ++ '=' :: (b ++ ['\n']) = l := by
      have hassoc : a ++ '=' :: (b ++ ['\n']) = (a ++ '=' :: b) ++ ['\n'] := by simp
      rw [hassoc, hline, hstrip, ← hl]
    simp only [List.map_cons, format_module_prop, List.flatten_cons]
    rw [hkv]
    have hrest := ih (fun x hx => h x (List.mem_cons_of_mem l hx))
    unfold format_module_prop at hrest
    rw [hrest, hpiece]

/-- C3 counterexample: a properties file containing a comment line is parsed
and re-serialized with the comment dropped, so the round trip is not
byte-identical for arbitrary file contents. -/
theorem c3_roundtrip_counterexample :
    format_module_prop (parse_module_prop "# c\nid=x\n".toList) = "id=x\n".toList ∧
    "id=x\n".toList ≠ "# c\nid=x\n".toList := by
  decide

/-- C3 (amended): parsing then re-serializing is byte-identical for every
properties file whose lines each end in a newline, carry no surrounding
whitespace (so stripping only removes the newline), are not comments, contain
an `=`, contain no carriage return (whose text-mode translation the model
does not reproduce), and whose keys are pairwise distinct; unknown keys
round-trip unchanged and key order is preserved.  Comment lines, blank
lines, `=`-less lines, surrounding whitespace and duplicate keys are all
normalized away, so byte-identity does not hold for arbitrary contents. -/
theorem module_prop_roundtrip (lines : List (List Char))
    (hw : ∀ l ∈ lines,
      l.getLast? = some '\n' ∧ '\n' ∉ l.dropLast ∧ pyStrip l = l.dropLast ∧
      (pyStrip l).head? ≠ some '#' ∧ '=' ∈ pyStrip l ∧ '\r' ∉ l)
    (hnd : (lines.map lineKey).Nodup) :
    format_module_prop (parse_module_prop lines.flatten) = lines.flatten := by
  unfold parse_module_prop
  rw [readLines_flatten lines (fun l hl => ⟨(hw l hl).1, (hw l hl).2.1⟩)]
  rw [parse_fold lines [] (fun l hl => (hw l hl).2.2.2.1)
    (fun l hl p hp => absurd hp (List.not_mem_nil p)) hnd]
  rw [List.nil_append]
  exact format_lines lines
    (fun l hl => ⟨(hw l hl).2.2.1, (hw l hl).1, (hw l hl).2.2.2.2.1⟩)

/-- C3 witness: the round-trip theorem applied to a concrete two-line
properties file. -/
theorem module_prop_roundtrip_witness :
    format_module_prop (parse_module_prop
      (["id=py2droid\n".toList, "version=1.0\n".toList] : List (List Char)).flatten) =
    (["id=py2droid\n".toList, "version=1.0\n".toList] : List (List Char)).flatten :=
  module_prop_roundtrip ["id=py2droid\n".toList, "version=1.0\n".toList]
    (by decide) (by decide)

/-! ## Compression and the architecture mapping
(`ModuleBuilder.arch_mapping`, `compressed_name`, `_compress`) -/

/-- `ModuleBuilder.arch_mapping` (build.py lines 291-297). -/
def arch_mapping : List (String × String) :=
  [("aarch64-linux-android", "arm64"),
   ("arm-linux-androideabi", "arm"),
   ("armv7a-linux-androideabi", "arm"),
   ("i686-linux-android", "x86"),
   ("x86_64-linux-android", "x64")]

/-- `self.arch_mapping[host]` as a partial lookup. -/
def lookupArch (host : String) : Option String :=
  (arch_mapping.find? (fun p => p.1 == host)).map (fun p => p.2)

/-- `ModuleBuilder.compressed_name.format(arch)`. -/
def compressed_name (arch : String) : String :=
  "cpython-" ++ arch ++ ".tar.xz"

/-- `ModuleBuilder._compress` (build.py lines 496-509) reduced to its
fallible control flow: `self.arch_mapping[host]` raises `KeyError(host)`
before `tarfile.open` ever runs, so on an unmapped host no tarball file is
created; on a mapped host exactly one tarball is produced, at
`BUILD_DIR / compressed_name.format(magisk_arch)`. -/
def compress (host : String) : Except String String :=
  match lookupArch host with
  | none => .error host
  | some a => .ok ("build/" ++ compressed_name a)

/-- C6: an unmapped host triplet makes `_compress` fail with the
configuration (key) error before any tarball is created, while a mapped host
produces exactly one tarball named from the mapped short architecture name. -/
theorem compress_spec (host : String) :
    (lookupArch host = none → compress host = .error host) ∧
    (∀ a, lookupArch host = some a →
      compress host = .ok ("build/" ++ ("cpython-" ++ a ++ ".tar.xz"))) := by
  constructor
  · intro h
    unfold compress
    rw [h]
  · intro a h
    unfold compress
    rw [h]
    rfl

/-- C6 witness: the spec applied to an unmapped and a mapped host. -/
theorem compress_spec_witness :
    compress "riscv64-linux-android" = .error "riscv64-linux-android" ∧
    compress "aarch64-linux-android" =
      .ok ("build/" ++ ("cpython-" ++ "arm64" ++ ".tar.xz")) :=
  ⟨(compress_spec "riscv64-linux-android").1 (by decide),
   (compress_spec "aarch64-linux-android").2 "arm64" (by decide)⟩

/-- C10: the architecture mapping is not injective: the two distinct valid
hosts `arm-linux-androideabi` and `armv7a-linux-androideabi` both map to
`arm`, so `_compress` computes the same output tarball path for both and the
second compressed tarball overwrites the first. -/
theorem arch_mapping_not_injective :
    "arm-linux-androideabi" ≠ "armv7a-linux-androideabi" ∧
    lookupArch "arm-linux-androideabi" = some "arm" ∧
    lookupArch "armv7a-linux-androideabi" = some "arm" ∧
    compress "arm-linux-androideabi" = compress "armv7a-linux-androideabi" ∧
    compress "arm-linux-androideabi" = .ok "build/cpython-arm.tar.xz" :=
  ⟨by decide, by decide, by decide, rfl, rfl⟩

/-! ## Patch application (`CPythonBuilder._apply_patches`) -/

/-- The observable outcome of one `patch -Np1 -sr - -i <file>` invocation. -/
structure PatchRun where
  returncode : Int
  stdout : List Char
  stderr : List Char
deriving DecidableEq

/-- The tool output that `_apply_patches` treats as an idempotent re-run. -/
def reversedMsg : List Char :=
  "Reversed (or previously applied) patch detected!".toList

/-- Python's `needle in hay` substring containment on character lists. -/
def occursIn (needle : List Char) : List Char → Bool
  | [] => needle.isEmpty
  | c :: cs => needle.isPrefixOf (c :: cs) || occursIn needle cs

/-- A patch invocation `_apply_patches` continues past: exit code `0`, or the
already-applied/reversed message in the captured stdout. -/
def patchOk (r : PatchRun) : Bool :=
  r.returncode == 0 || occursIn reversedMsg r.stdout

/-- The payload of the `CalledProcessError` raised for any other non-zero
exit: the tool's exit code and captured output. -/
structure PatchError where
  returncode : Int
  stdout : List Char
  stderr : List Char
deriving DecidableEq

/-- `_apply_patches` (build.py lines 179-206) over the ordered patch
invocation outcomes: returns how many patches were run, and the raised error
if one aborted the loop. -/
def apply_patches : List PatchRun → Nat × Option PatchError
  | [] => (0, none)
  | r :: rs =>
    if r.returncode == 0 then
      ((apply_patches rs).1 + 1, (apply_patches rs).2)
    else if occursIn reversedMsg r.stdout then
      ((apply_patches rs).1 + 1, (apply_patches rs).2)
    else (1, some ⟨r.returncode, r.stdout, r.stderr⟩)

/-- C7: a patch exiting 0, or exiting non-zero while reporting
already-applied/reversed, is treated as success and the loop continues (a
fully successful list runs every patch and raises nothing); the first other
non-zero exit raises an error carrying that invocation's exit code and
captured output, and no later patch is run. -/
theorem apply_patches_spec (pre : List PatchRun) (r : PatchRun) (post : List PatchRun)
    (hpre : ∀ p ∈ pre, patchOk p = true) (hr : patchOk r = false) :
    apply_patches (pre ++ r :: post) =
      (pre.length + 1, some ⟨r.returncode, r.stdout, r.stderr⟩) ∧
    ∀ l : List PatchRun, (∀ p ∈ l, patchOk p = true) →
      apply_patches l = (l.length, none) := by
  have hall : ∀ l : List PatchRun, (∀ p ∈ l, patchOk p = true) →
      apply_patches l = (l.length, none) := by
    intro l
    induction l with
    | nil => intro _; rfl
    | cons p l ih =>
      intro h
      have hp : patchOk p = true := h p (List.mem_cons_self p l)
      have hrest := ih (fun q hq => h q (List.mem_cons_of_mem p hq))
      unfold patchOk at hp
      rcases Bool.or_eq_true_iff.mp hp with h0 | hmsg
      · simp only [apply_patches, h0, if_true, hrest]
        rfl
      · by_cases h0 : (p.returncode == 0) = true
        · simp only [apply_patches, h0, if_true, hrest]
          rfl
        · simp only [apply_patches, Bool.eq_false_iff.mpr h0, Bool.false_eq_true,
            if_false, hmsg, if_true, hrest]
          rfl
  refine ⟨?_, hall⟩
  induction pre with
  | nil =>
    obtain ⟨h0, hmsg⟩ := Bool.or_eq_false_iff.mp hr
    simp only [List.nil_append, apply_patches, h0, Bool.false_eq_true, if_false,
      hmsg, List.length_nil, Nat.zero_add]
  | cons p pre ih =>
    have hp : patchOk p = true := hpre p (List.mem_cons_self p pre)
    have ihp := ih (fun q hq => hpre q (List.mem_cons_of_mem p hq))
    unfold patchOk at hp
    have step : apply_patches (p :: (pre ++ r :: post)) =
        ((apply_patches (pre ++ r :: post)).1 + 1,
          (apply_patches (pre ++ r :: post)).2) := by
      rcases Bool.or_eq_true_iff.mp hp with h0 | hmsg
      · simp only [apply_patches, h0, if_true]
      · by_cases h0 : (p.returncode == 0) = true
        · simp only [apply_patches, h0, if_true]
        · simp only [apply_patches, Bool.eq_false_iff.mpr h0, Bool.false_eq_true,
            if_false, hmsg, if_true]
    rw [List.cons_append, step, ihp]
    simp [Nat.add_comm, Nat.add_assoc]

/-- C7 witness: a successful patch followed by a hard failure followed by an
unprocessed patch. -/
theorem apply_patches_spec_witness :
    apply_patches ([⟨0, [], []⟩] ++ ⟨1, "boom".toList, "err".toList⟩ ::
        [⟨0, [], []⟩]) =
      (([⟨(0 : Int), ([] : List Char), ([] : List Char)⟩] : List PatchRun).length + 1,
        some ⟨1, "boom".toList, "err".toList⟩) ∧
    ∀ l : List PatchRun, (∀ p ∈ l, patchOk p = true) →
      apply_patches l = (l.length, none) :=
  apply_patches_spec [⟨0, [], []⟩] ⟨1, "boom".toList, "err".toList⟩
    [⟨0, [], []⟩] (by decide) (by decide)

/-! ## NDK toolchain discovery (`CPythonBuilder._find_ndk_toolchain`) -/

inductive NdkError
  | versionNotFound
  | toolchainNotFound
deriving DecidableEq

/-- The literal the version pattern is anchored on. -/
def ndkVersionKey : List Char := "ndk_version=".toList

/-- `re.search("(?m)^ndk_version=(.+)$", content)`: the first line starting
with `ndk_version=` and carrying at least one further character; the greedy
group is the whole rest of that line (`.` does not cross the newline). -/
def parse_ndk_version (content : List Char) : Option (List Char) :=
  ((content.splitOn '\n').find?
    (fun l => ndkVersionKey.isPrefixOf l && !(l.drop ndkVersionKey.length).isEmpty)).map
    (fun l => l.drop ndkVersionKey.length)

/-- `$ANDROID_HOME / "ndk" / ndk_version / "toolchains/llvm/prebuilt"`. -/
def prebuilt_dir (androidHome : String) (version : List Char) : String :=
  androidHome ++ "/ndk/" ++ String.mk version ++ "/toolchains/llvm/prebuilt"

/-- `CPythonBuilder._find_ndk_toolchain` (build.py lines 208-233): the file
contents of `Android/android-env.sh`, the externally supplied toolchain root
(`$ANDROID_HOME`), and the directory listing of the filesystem
(`next(prebuilt.iterdir(), None)` takes the first entry). -/
def find_ndk_toolchain (content : List Char) (androidHome : String)
    (iterdir : String → List String) : Except NdkError String :=
  match parse_ndk_version content with
  | none => .error .versionNotFound
  | some v =>
    match iterdir (prebuilt_dir androidHome v) with
    | [] => .error .toolchainNotFound
    | t :: _ => .ok t

/-- C8: `_find_ndk_toolchain` fails iff the version pattern is absent or the
derived prebuilt directory lists no entry; otherwise it returns the first
listed toolchain directory.  A version-parse failure is decided before any
directory lookup: the result is then the same for every directory listing. -/
theorem find_ndk_toolchain_spec (content : List Char) (home : String)
    (iter : String → List String) :
    (parse_ndk_version content = none →
      ∀ iter' : String → List String,
        find_ndk_toolchain content home iter' = .error .versionNotFound) ∧
    (∀ v, parse_ndk_version content = some v →
      (iter (prebuilt_dir home v) = [] →
        find_ndk_toolchain content home iter = .error .toolchainNotFound) ∧
      (∀ e rest, iter (prebuilt_dir home v) = e :: rest →
        find_ndk_toolchain content home iter = .ok e)) ∧
    ((∃ err, find_ndk_toolchain content home iter = .error err) ↔
      (parse_ndk_version content = none ∨
        ∃ v, parse_ndk_version content = some v ∧ iter (prebuilt_dir home v) = [])) := by
  refine ⟨?_, ?_, ?_, ?_⟩
  · intro h iter'
    unfold find_ndk_toolchain
    rw [h]
  · intro v h
    constructor
    · intro hemp
      unfold find_ndk_toolchain
      rw [h]
      show (match iter (prebuilt_dir home v) with
            | [] => Except.error NdkError.toolchainNotFound
            | t :: _ => Except.ok t) = Except.error NdkError.toolchainNotFound
      rw [hemp]
    · intro e rest hit
      unfold find_ndk_toolchain
      rw [h]
      show (match iter (prebuilt_dir home v) with
            | [] => Except.error NdkError.toolchainNotFound
            | t :: _ => Except.ok t) = Except.ok e
      rw [hit]
  · rintro ⟨err, herr⟩
    cases hp : parse_ndk_version content with
    | none => exact Or.inl rfl
    | some v =>
      cases hit : iter (prebuilt_dir home v) with
      | nil => exact Or.inr ⟨v, rfl, hit⟩
      | cons e rest =>
        exfalso
        unfold find_ndk_toolchain at herr
        rw [hp] at herr
        have herr2 : (match iter (prebuilt_dir home v) with
            | [] => Except.error NdkError.toolchainNotFound
            | t :: _ => (Except.ok t : Except NdkError String)) =
            Except.error err := herr
        rw [hit] at herr2
        cases herr2
  · rintro (h | ⟨v, hv, hit⟩)
    · exact ⟨.versionNotFound, by unfold find_ndk_toolchain; rw [h]⟩
    · refine ⟨.toolchainNotFound, ?_⟩
      unfold find_ndk_toolchain
      rw [hv]
      show (match iter (prebuilt_dir home v) with
            | [] => Except.error NdkError.toolchainNotFound
            | t :: _ => Except.ok t) = Except.error NdkError.toolchainNotFound
      rw [hit]

/-- C8 witness: the spec applied to a concrete environment script and a
directory listing with one toolchain. -/
theorem find_ndk_toolchain_spec_witness :
    find_ndk_toolchain "api_level=24\nndk_version=27.1\n".toList "/sdk"
      (fun _ => ["linux-x86_64"]) = .ok "linux-x86_64" :=
  ((find_ndk_toolchain_spec "api_level=24\nndk_version=27.1\n".toList "/sdk"
      (fun _ => ["linux-x86_64"])).2.1 "27.1".toList (by decide)).2
    "linux-x86_64" [] rfl

/-! ## Build environment construction
(`CPythonBuilder._create_env`, `update_env_path`)

An environment is an insertion-ordered association list, the shallow
embedding of a Python `dict[str, str]`. -/

abbrev Env := List (String × String)

/-- Dictionary lookup. -/
def envGet (env : Env) (k : String) : Option String :=
  (env.find? (fun p => p.1 == k)).map (fun p => p.2)

/-- `env[k] = v`: an existing key keeps its position and gets the new value,
a new key is appended. -/
def envSet (env : Env) (k v : String) : Env :=
  if env.any (fun p => p.1 == k) then
    env.map (fun p => if p.1 == k then (k, v) else p)
  else env ++ [(k, v)]

/-- `env.update(overrides)`. -/
def envUpdate (env : Env) (overrides : Env) : Env :=
  overrides.foldl (fun e kv => envSet e kv.1 kv.2) env

/-- `os.pathsep` on the posix hosts this build runs on. -/
def pathsep : String := ":"

/-- `update_env_path(env, key, value)` (build.py lines 548-555), with the
single value each call site passes: `os.pathsep.join((value, old))` prepends
the new entry, and an absent variable gets a fresh single-entry value. -/
def update_env_path (env : Env) (key : String) (value : String) : Env :=
  match envGet env key with
  | none => envSet env key value
  | some old => envSet env key (value ++ pathsep ++ old)

/-- `CPythonBuilder._create_env` (build.py lines 235-248): a fresh copy of
the process environment overlaid with the configured overrides, then the
toolchain `bin` and `lib` directories prepended to `PATH` and `LIBRARY_PATH`.
`os.environ.copy()` is modelled by taking the base environment by value and
returning a new list, so the parent environment is untouched by
construction. -/
def create_env (base overrides : Env) (toolchain : String) : Env :=
  update_env_path
    (update_env_path (envUpdate base overrides) "PATH" (toolchain ++ "/bin"))
    "LIBRARY_PATH" (toolchain ++ "/lib")

theorem envGet_envSet_same : ∀ (env : Env) (k v : String),
    envGet (envSet env k v) k = some v := by
  intro env k v
  unfold envSet
  by_cases h : (env.any fun p => p.1 == k) = true
  · rw [if_pos h]
    obtain ⟨q, hq, hqk⟩ := List.any_eq_true.mp h
    clear h
    induction env with
    | nil => cases hq
    | cons p env ih =>
      by_cases hp : (p.1 == k) = true
      · simp only [List.map_cons, hp, if_true]
        unfold envGet
        rw [@List.find?_cons_of_pos _ (fun q => q.1 == k) (k, v) _ (by simp)]
        rfl
      · simp only [List.map_cons, hp, Bool.false_eq_true, if_false]
        unfold envGet
        rw [@List.find?_cons_of_neg _ (fun q => q.1 == k) p _ (fun hc => hp hc)]
        have hq' : q ∈ env := by
          rcases List.mem_cons.mp hq with he | hm
          · exfalso
            rw [he] at hqk
            exact absurd hqk hp
          · exact hm
        exact ih hq'
  · rw [if_neg h]
    have hnone : env.find? (fun p => p.1 == k) = none := by
      rw [List.find?_eq_none]
      intro p hp
      have := List.any_eq_false.mp (Bool.eq_false_iff.mpr h) p hp
      simpa using this
    unfold envGet
    rw [List.find?_append, hnone]
    simp [List.find?]

theorem envGet_envSet_other : ∀ (env : Env) (k k' v : String), k ≠ k' →
    envGet (envSet env k v) k' = envGet env k' := by
  intro env k k' v hne
  unfold envSet
  by_cases h : (env.any fun p => p.1 == k) = true
  · rw [if_pos h]
    clear h
    induction env with
    | nil => rfl
    | cons p env ih =>
      simp only [List.map_cons]
      by_cases hp : (p.1 == k) = true
      · simp only [hp, if_true]
        unfold envGet
        have hpk : p.1 = k := by simpa using hp
        have hnk : ¬((fun q : String × String => q.1 == k') (k, v) = true) := by
          simpa using hne
        have hnp : ¬((fun q : String × String => q.1 == k') p = true) := by
          simp only [hpk]
          simpa using hne
        rw [@List.find?_cons_of_neg _ (fun q => q.1 == k') (k, v) _ hnk,
          @List.find?_cons_of_neg _ (fun q => q.1 == k') p _ hnp]
        exact ih
      · simp only [hp, Bool.false_eq_true, if_false]
        by_cases hpk' : (p.1 == k') = true
        · unfold envGet
          rw [@List.find?_cons_of_pos _ (fun q => q.1 == k') p _ hpk',
            @List.find?_cons_of_pos _ (fun q => q.1 == k') p _ hpk']
        · unfold envGet
          rw [@List.find?_cons_of_neg _ (fun q => q.1 == k') p _ hpk',
            @List.find?_cons_of_neg _ (fun q => q.1 == k') p _ hpk']
          exact ih
  · rw [if_neg h]
    unfold envGet
    rw [List.find?_append]
    have hlast : List.find? (fun p => p.1 == k') [(k, v)] = none := by
      rw [List.find?_eq_none]
      intro p hp
      rw [List.mem_singleton.mp hp]
      simpa using hne
    rw [hlast]
    cases List.find? (fun p => p.1 == k') env <;> rfl

theorem envGet_envUpdate : ∀ (overrides base : Env) (k : String),
    (overrides.map Prod.fst).Nodup →
    envGet (envUpdate base overrides) k =
      match envGet overrides k with
      | some v => some v
      | none => envGet base k := by
  intro overrides
  induction overrides with
  | nil => intro base k _; rfl
  | cons kv overrides ih =>
    intro base k hnd
    show envGet (envUpdate (envSet base kv.1 kv.2) overrides) k = _
    rw [ih (envSet base kv.1 kv.2) k (List.Nodup.of_cons hnd)]
    by_cases hk : kv.1 = k
    · have hfind : List.find? (fun p => p.1 == k) overrides = none := by
        rw [List.find?_eq_none]
        intro p hp hbeq
        have hpk : p.1 = k := by simpa using hbeq
        have hmem : kv.1 ∈ overrides.map Prod.fst := by
          rw [hk, ← hpk]
          exact List.mem_map_of_mem Prod.fst hp
        exact (List.nodup_cons.mp hnd).1 hmem
      have hnone : envGet overrides k = none := by
        unfold envGet
        rw [hfind]
        rfl
      have hhead : envGet (kv :: overrides) k = some kv.2 := by
        unfold envGet
        rw [@List.find?_cons_of_pos _ (fun q => q.1 == k) kv _ (by simp [hk])]
        rfl
      rw [hnone, hhead, ← hk, envGet_envSet_same]
    · have hhead : envGet (kv :: overrides) k = envGet overrides k := by
        unfold envGet
        rw [@List.find?_cons_of_neg _ (fun q => q.1 == k) kv _ (by simpa using hk)]
      rw [hhead, envGet_envSet_other base kv.1 k kv.2 hk]

theorem update_env_path_same (env : Env) (key v : String) :
    envGet (update_env_path env key v) key =
      some (match envGet env key with
        | none => v
        | some old => v ++ pathsep ++ old) := by
  unfold update_env_path
  cases h : envGet env key with
  | none => rw [envGet_envSet_same]
  | some old => rw [envGet_envSet_same]

theorem update_env_path_other (env : Env) (key v k : String) (h : key ≠ k) :
    envGet (update_env_path env key v) k = envGet env k := by
  unfold update_env_path
  cases envGet env key with
  | none => exact envGet_envSet_other env key k v h
  | some old => exact envGet_envSet_other env key k _ h

/-- C9: the environment built by `_create_env` equals the base process
environment overlaid with the user overrides, except that `PATH` holds the
toolchain `bin` directory prepended (new entry first, separator-joined, the
whole pre-existing value — and so every pre-existing entry in order —
preserved behind it, a fresh single-entry value when the variable was
absent), and `LIBRARY_PATH` likewise holds the toolchain `lib` directory
prepended.  Every other key reads as override-if-present, else base.  The
base environment is consumed by value and returned as a new list
(`os.environ.copy()`), so the parent process environment is never mutated. -/
theorem create_env_spec (base overrides : Env) (tc : String)
    (ho : (overrides.map Prod.fst).Nodup) :
    (envGet (create_env base overrides tc) "PATH" =
      some (match envGet (envUpdate base overrides) "PATH" with
        | none => tc ++ "/bin"
        | some old => (tc ++ "/bin") ++ pathsep ++ old)) ∧
    (envGet (create_env base overrides tc) "LIBRARY_PATH" =
      some (match envGet (envUpdate base overrides) "LIBRARY_PATH" with
        | none => tc ++ "/lib"
        | some old => (tc ++ "/lib") ++ pathsep ++ old)) ∧
    (∀ k, k ≠ "PATH" → k ≠ "LIBRARY_PATH" →
      envGet (create_env base overrides tc) k =
        match envGet overrides k with
        | some v => some v
        | none => envGet base k) := by
  have hne : ("LIBRARY_PATH" : String) ≠ "PATH" := by decide
  have hne2 : ("PATH" : String) ≠ "LIBRARY_PATH" := by decide
  refine ⟨?_, ?_, ?_⟩
  · unfold create_env
    rw [update_env_path_other _ "LIBRARY_PATH" _ "PATH" hne]
    exact update_env_path_same _ "PATH" _
  · unfold create_env
    rw [update_env_path_same _ "LIBRARY_PATH" _]
    rw [update_env_path_other _ "PATH" _ "LIBRARY_PATH" hne2]
  · intro k hk1 hk2
    unfold create_env
    rw [update_env_path_other _ "LIBRARY_PATH" _ k (fun he => hk2 he.symm)]
    rw [update_env_path_other _ "PATH" _ k (fun he => hk1 he.symm)]
    exact envGet_envUpdate overrides base k ho

/-- C9 witness: the environment theorem applied to a concrete base
environment, override set and toolchain path. -/
theorem create_env_spec_witness :
    (envGet (create_env [("PATH", "/usr/bin"), ("HOME", "/root")]
        [("CC", "clang")] "/tc") "PATH" =
      some (match envGet (envUpdate [("PATH", "/usr/bin"), ("HOME", "/root")]
          [("CC", "clang")]) "PATH" with
        | none => "/tc" ++ "/bin"
        | some old => ("/tc" ++ "/bin") ++ pathsep ++ old)) ∧
    (envGet (create_env [("PATH", "/usr/bin"), ("HOME", "/root")]
        [("CC", "clang")] "/tc") "LIBRARY_PATH" =
      some (match envGet (envUpdate [("PATH", "/usr/bin"), ("HOME", "/root")]
          [("CC", "clang")]) "LIBRARY_PATH" with
        | none => "/tc" ++ "/lib"
        | some old => ("/tc" ++ "/lib") ++ pathsep ++ old)) ∧
    (∀ k, k ≠ "PATH" → k ≠ "LIBRARY_PATH" →
      envGet (create_env [("PATH", "/usr/bin"), ("HOME", "/root")]
          [("CC", "clang")] "/tc") k =
        match envGet [("CC", "clang")] k with
        | some v => some v
        | none => envGet [("PATH", "/usr/bin"), ("HOME", "/root")] k) :=
  create_env_spec [("PATH", "/usr/bin"), ("HOME", "/root")] [("CC", "clang")]
    "/tc" (by decide)
